import Mathlib

/-!
Verification of the `vsort` version-sort comparator (`src/lib.rs`).

Strings are modelled as `List Char` (Rust `&str` iterated by `chars()`;
all splits in the source happen at character boundaries, and Rust's
byte-wise `str::cmp` coincides with code-point-wise lexicographic order
because UTF-8 preserves code-point order).  Rust `u64` values are
modelled as `Nat` together with the explicit overflow behaviour of
`str::parse::<u64>` (values `≥ 2^64` are a parse error, which the source
turns into `0` via `unwrap_or_default`).
-/

namespace Vsort

/-- Three-way comparison of natural numbers; models Rust `u64::cmp` (the
parsed digit values are always `< 2^64`, see `parseU64`) and `char::cmp`
(via `Char.toNat` code points).  Same shape as core `compareOfLessAndEq`. -/
def ordNat (m n : Nat) : Ordering :=
  if m < n then .lt else if m = n then .eq else .gt

/-- Models Rust `char::is_ascii_digit`: `'0'..='9'` (code points 48-57). -/
def isAsciiDigit (c : Char) : Bool :=
  48 ≤ c.toNat && c.toNat ≤ 57

/-- Models Rust `char::is_ascii_alphabetic`: `'A'..='Z'` (65-90) or `'a'..='z'` (97-122). -/
def isAsciiAlphabetic (c : Char) : Bool :=
  (65 ≤ c.toNat && c.toNat ≤ 90) || (97 ≤ c.toNat && c.toNat ≤ 122)

/-- Models `non_digit_seq` (lib.rs 210-215): split at the first ASCII digit;
if there is none the whole string is the non-digit part. -/
def nonDigitSeq : List Char → List Char × List Char
  | [] => ([], [])
  | c :: cs =>
    if isAsciiDigit c then ([], c :: cs)
    else ((c :: (nonDigitSeq cs).1), (nonDigitSeq cs).2)

/-- Models `digit_seq` (lib.rs 216-221): split at the first non-digit. -/
def digitSeq : List Char → List Char × List Char
  | [] => ([], [])
  | c :: cs =>
    if isAsciiDigit c then ((c :: (digitSeq cs).1), (digitSeq cs).2)
    else ([], c :: cs)

/-- Numeric value of a digit run, exactly as decimal parsing accumulates it. -/
def digitsVal (ds : List Char) : Nat :=
  List.foldl (fun acc c => 10 * acc + (c.toNat - 48)) 0 ds

/-- Models `digit_part.parse::<u64>().unwrap_or_default()` (lib.rs 28) on a
run of ASCII digits: the empty string is a parse error (`0`), and a value
that does not fit in 64 bits is an overflow error, which
`unwrap_or_default` also turns into `0`. -/
def parseU64 (ds : List Char) : Nat :=
  if ds = [] then 0
  else if digitsVal ds < 18446744073709551616 then digitsVal ds else 0

/-- Models `VersionSortChar::partial_cmp` (lib.rs 146-182) composed with the
`unwrap()` at lib.rs 200-202 (the source always returns `Some`):
tilde sorts below everything, the absent marker below everything but tilde,
ASCII letters before other characters, code-point order inside a class. -/
def vsCharCmp : Option Char → Option Char → Ordering
  | none, none => .eq
  | some a, none => if a = '~' then .lt else .gt
  | none, some b => if b = '~' then .gt else .lt
  | some a, some b =>
    if a = b then .eq
    else if a = '~' then .lt
    else if b = '~' then .gt
    else
      match isAsciiAlphabetic a, isAsciiAlphabetic b with
      | true, true => ordNat a.toNat b.toNat
      | false, false => ordNat a.toNat b.toNat
      | true, false => .lt
      | false, true => .gt

/-- Loop of `compare_non_digit_seq` once the left string is exhausted:
every further step compares `None` against the next right character. -/
def cndLeftEmpty : List Char → Ordering
  | [] => .eq
  | b :: bs =>
    match vsCharCmp none (some b) with
    | .eq => cndLeftEmpty bs
    | o => o

/-- Loop of `compare_non_digit_seq` once the right string is exhausted. -/
def cndRightEmpty : List Char → Ordering
  | [] => .eq
  | a :: as =>
    match vsCharCmp (some a) none with
    | .eq => cndRightEmpty as
    | o => o

/-- Models `compare_non_digit_seq` (lib.rs 191-208): walk both strings in
lockstep, compare the current characters (absent = `None`), return the first
non-equal verdict; equal when both run out together. -/
def compareNonDigitSeq : List Char → List Char → Ordering
  | [], bs => cndLeftEmpty bs
  | as, [] => cndRightEmpty as
  | a :: as, b :: bs =>
    match vsCharCmp (some a) (some b) with
    | .eq => compareNonDigitSeq as bs
    | o => o

/-- Fuel-indexed loop of `with_iterator` (lib.rs 35-59).  One iteration pulls
one chunk (non-digit run, parsed digit run) from each side; an exhausted side
yields the default chunk `("", 0)` (lib.rs 47-48), which is exactly what the
splitting functions produce on the empty string, so no separate case is
needed.  Each iteration consumes at least one character from a non-exhausted
side, so `a.length + b.length + 1` fuel always suffices (see `withIterator`). -/
def withIteratorF : Nat → List Char → List Char → Ordering
  | 0, _, _ => .eq
  | fuel + 1, a, b =>
    if a.isEmpty && b.isEmpty then .eq
    else
      match compareNonDigitSeq (nonDigitSeq a).1 (nonDigitSeq b).1 with
      | .eq =>
        match ordNat (parseU64 (digitSeq (nonDigitSeq a).2).1)
                     (parseU64 (digitSeq (nonDigitSeq b).2).1) with
        | .eq => withIteratorF fuel (digitSeq (nonDigitSeq a).2).2 (digitSeq (nonDigitSeq b).2).2
        | o => o
      | o => o

/-- Models `with_iterator` (lib.rs 35-59). -/
def withIterator (a b : List Char) : Ordering :=
  withIteratorF (a.length + b.length + 1) a b

/-- Models `compare_version_sort` (lib.rs 94-96). -/
def compareVersionSort (a b : List Char) : Ordering :=
  withIterator a b

/-- First character of an extension segment after the dot: ASCII letter or tilde. -/
def isExtFirst (c : Char) : Bool :=
  isAsciiAlphabetic c || c = '~'

/-- Body character of an extension segment: ASCII letter, digit or tilde. -/
def isExtBody (c : Char) : Bool :=
  isAsciiAlphabetic c || isAsciiDigit c || c = '~'

/-- Deterministic scan for membership in the language of the anchored regex
`(\.[A-Za-z~][A-Za-z0-9~]*)*` used by `split_extension` (lib.rs 124).
State `true`: a dot was just consumed, the next character must be a letter or
tilde.  State `false`: inside a segment body; a dot starts the next segment.
The body class does not contain the dot, so the factorisation into segments
is unique and this scan recognises exactly the regex language. -/
def extScan : Bool → List Char → Bool
  | afterDot, [] => !afterDot
  | true, d :: ds => isExtFirst d && extScan false ds
  | false, e :: es => if e = '.' then extScan true es else isExtBody e && extScan false es

/-- Membership in the extension language: empty, or a dot-led segment sequence. -/
def isExtLang : List Char → Bool
  | [] => true
  | c :: cs => c = '.' && extScan true cs

/-- Models `split_extension` (lib.rs 119-130).  The regex is anchored at the
end (`$`), so `Regex::find` returns the leftmost index whose suffix lies in
the extension language (the empty suffix always matches, so a match always
exists); the string is split at that index. -/
def splitExtension : List Char → List Char × List Char
  | [] => ([], [])
  | c :: cs =>
    if isExtLang (c :: cs) then ([], c :: cs)
    else ((c :: (splitExtension cs).1), (splitExtension cs).2)

/-- Models Rust `str::cmp` (lib.rs 116): byte-wise lexicographic order, which
equals code-point-wise lexicographic order under UTF-8. -/
def listCmp : List Char → List Char → Ordering
  | [], [] => .eq
  | [], _ :: _ => .lt
  | _ :: _, [] => .gt
  | a :: as, b :: bs =>
    match ordNat a.toNat b.toNat with
    | .eq => listCmp as bs
    | o => o

/-- Models `compare` (lib.rs 103-117): compare the extension-stripped bases,
then the full strings, then fall back to raw string order. -/
def compare (a b : List Char) : Ordering :=
  match compareVersionSort (splitExtension a).1 (splitExtension b).1 with
  | .eq =>
    match compareVersionSort a b with
    | .eq => listCmp a b
    | o => o
  | o => o

/-- Stable insertion of one element, ordered by `compare`. -/
def insertSorted (x : List Char) : List (List Char) → List (List Char)
  | [] => [x]
  | y :: ys => if compare x y = .gt then y :: insertSorted x ys else x :: y :: ys

/-- Models `sort` (lib.rs 98-100), `arr.sort_by(|a, b| compare(a, b))`, as a
stable insertion sort.  Rust `sort_by` is stable, and for a comparator that
is a lawful total order (proved below) every stable sort computes the same
output, so this is extensionally faithful. -/
def sort : List (List Char) → List (List Char)
  | [] => []
  | x :: xs => insertSorted x (sort xs)

/-- Numeric key realising `vsCharCmp` (proof device, not part of the source):
tilde is `0`, the absent marker `1`, ASCII letters `2 + code`, all other
characters `2 + 0x110000 + code`.  Letter codes are at most 122 and every
code point is below `0x110000`, so the classes are ordered and disjoint. -/
def keyChar : Option Char → Nat
  | none => 1
  | some c =>
    if c = '~' then 0
    else if isAsciiAlphabetic c then 2 + c.toNat
    else 2 + 1114112 + c.toNat

/-- Numeric key realising raw code-point comparison with absent below all. -/
def rawKey : Option Char → Nat
  | none => 0
  | some c => 1 + c.toNat

/-- Generic padded comparison, left side exhausted (proof device). -/
def padLeftEmpty {α : Type} (c : Option α → Option α → Ordering) : List α → Ordering
  | [] => .eq
  | b :: bs =>
    match c none (some b) with
    | .eq => padLeftEmpty c bs
    | o => o

/-- Generic padded comparison, right side exhausted (proof device). -/
def padRightEmpty {α : Type} (c : Option α → Option α → Ordering) : List α → Ordering
  | [] => .eq
  | a :: as =>
    match c (some a) none with
    | .eq => padRightEmpty c as
    | o => o

/-- Generic padded lexicographic comparison of two lists: compare heads
(`none` when a side is exhausted), recurse on equality, stop when both sides
are exhausted (proof device subsuming `compareNonDigitSeq`, `listCmp` and the
chunk loop of `withIterator`). -/
def padCmpGen {α : Type} (c : Option α → Option α → Ordering) : List α → List α → Ordering
  | [], bs => padLeftEmpty c bs
  | as, [] => padRightEmpty c as
  | a :: as, b :: bs =>
    match c (some a) (some b) with
    | .eq => padCmpGen c as bs
    | o => o

/-- Fuel-indexed chunk list of a string: the successive `(non-digit run,
parsed digit value)` pairs that `VersionSortChunkIterator` (lib.rs 18-33)
yields. -/
def chunksF : Nat → List Char → List (List Char × Nat)
  | 0, _ => []
  | fuel + 1, l =>
    if l.isEmpty then []
    else ((nonDigitSeq l).1, parseU64 (digitSeq (nonDigitSeq l).2).1)
           :: chunksF fuel (digitSeq (nonDigitSeq l).2).2

/-- Chunk list of a string with always-sufficient fuel. -/
def chunks (l : List Char) : List (List Char × Nat) :=
  chunksF (l.length + 1) l

/-- Comparison of one optional chunk pair, an exhausted side defaulting to
`("", 0)` exactly as in lib.rs 47-48. -/
def chunkOptCmp (x y : Option (List Char × Nat)) : Ordering :=
  match compareNonDigitSeq (x.getD ([], 0)).1 (y.getD ([], 0)).1 with
  | .eq => ordNat (x.getD ([], 0)).2 (y.getD ([], 0)).2
  | o => o

/-- Modelled from the spec (section 9, C2's reference order): compare two
digit runs by stripping leading zeros, then by length, then lexicographically
by the remaining digits.  This is the conformant unbounded-precision digit
comparison the specification mandates; it is used only to exhibit the
divergence of the source's 64-bit parsing from that contract. -/
def specDigitRunCmp (a b : List Char) : Ordering :=
  match ordNat (List.dropWhile (fun c => c = '0') a).length
               (List.dropWhile (fun c => c = '0') b).length with
  | .eq => listCmp (List.dropWhile (fun c => c = '0') a) (List.dropWhile (fun c => c = '0') b)
  | o => o

end Vsort

namespace Vsort

/-! Basic facts about `ordNat`. -/

theorem ordNat_eq_iff {m n : Nat} : ordNat m n = .eq ↔ m = n := by
  unfold ordNat
  split_ifs <;> simp_all <;> omega

theorem ordNat_lt_iff {m n : Nat} : ordNat m n = .lt ↔ m < n := by
  unfold ordNat
  split_ifs <;> simp_all <;> omega

theorem ordNat_gt_iff {m n : Nat} : ordNat m n = .gt ↔ n < m := by
  unfold ordNat
  split_ifs <;> simp_all <;> omega

theorem ordNat_swap (m n : Nat) : (ordNat m n).swap = ordNat n m := by
  unfold ordNat
  split_ifs <;> first | rfl | (exfalso; omega)

theorem ordNat_add_left (k m n : Nat) : ordNat (k + m) (k + n) = ordNat m n := by
  unfold ordNat
  split_ifs <;> first | rfl | omega

theorem transCmp_ordNat : Batteries.TransCmp ordNat where
  symm m n := ordNat_swap m n
  le_trans h1 h2 := by
    rw [Ne, ordNat_gt_iff] at h1 h2 ⊢
    omega

/-! Transfer principles for the Batteries comparator classes. -/

theorem transCmp_ptwise {α : Type} {c1 c2 : α → α → Ordering} (h : ∀ x y, c1 x y = c2 x y)
    (i : Batteries.TransCmp c2) : Batteries.TransCmp c1 where
  symm x y := by rw [h, h]; exact i.symm x y
  le_trans {x y z} h1 h2 := by
    rw [h] at h1 h2 ⊢
    exact i.le_trans h1 h2

theorem transCmp_comap {α β : Type} (f : β → α) {c : α → α → Ordering}
    (i : Batteries.TransCmp c) : Batteries.TransCmp (fun x y => c (f x) (f y)) where
  symm x y := i.symm (f x) (f y)
  le_trans h1 h2 := i.le_trans h1 h2

theorem transCmp_lex {α : Type} {c1 c2 : α → α → Ordering}
    (i1 : Batteries.TransCmp c1) (i2 : Batteries.TransCmp c2) :
    Batteries.TransCmp (fun a b => (c1 a b).then (c2 a b)) := by
  haveI := i1
  haveI := i2
  exact inferInstanceAs (Batteries.TransCmp (compareLex c1 c2))

/-! Character facts. -/

theorem charToNat_lt (c : Char) : c.toNat < 1114112 := by
  rcases c.valid with h | h
  · exact Nat.lt_trans h (by norm_num)
  · exact h.2

theorem charToNat_inj {a b : Char} (h : a.toNat = b.toNat) : a = b := by
  rw [← Char.ofNat_toNat a, ← Char.ofNat_toNat b, h]

theorem alpha_toNat_le {c : Char} (h : isAsciiAlphabetic c = true) : c.toNat ≤ 122 := by
  unfold isAsciiAlphabetic at h
  simp only [Bool.or_eq_true, Bool.and_eq_true, decide_eq_true_eq] at h
  omega

/-! The character comparison is realised by the numeric key `keyChar`. -/

theorem vsCharCmp_eq_key (x y : Option Char) : vsCharCmp x y = ordNat (keyChar x) (keyChar y) := by
  match x, y with
  | none, none => rfl
  | some a, none =>
    simp only [vsCharCmp, keyChar]
    split_ifs with h1 h2
    · rw [eq_comm, ordNat_lt_iff]; omega
    · rw [eq_comm, ordNat_gt_iff]; omega
    · rw [eq_comm, ordNat_gt_iff]; omega
  | none, some b =>
    simp only [vsCharCmp, keyChar]
    split_ifs with h1 h2
    · rw [eq_comm, ordNat_gt_iff]; omega
    · rw [eq_comm, ordNat_lt_iff]; omega
    · rw [eq_comm, ordNat_lt_iff]; omega
  | some a, some b =>
    simp only [vsCharCmp, keyChar]
    by_cases hab : a = b
    · subst hab
      rw [if_pos rfl, eq_comm, ordNat_eq_iff]
    · rw [if_neg hab]
      by_cases ha : a = '~'
      · have hb : ¬ b = '~' := fun hb => hab (hb ▸ ha)
        rw [if_pos ha, if_pos ha, if_neg hb]
        split_ifs with h2 <;> (rw [eq_comm, ordNat_lt_iff]; omega)
      · rw [if_neg ha, if_neg ha]
        by_cases hb : b = '~'
        · rw [if_pos hb, if_pos hb]
          split_ifs with h1 <;> (rw [eq_comm, ordNat_gt_iff]; omega)
        · rw [if_neg hb, if_neg hb]
          cases h1 : isAsciiAlphabetic a <;> cases h2 : isAsciiAlphabetic b <;>
            simp only [Bool.false_eq_true, if_false, if_true]
          · exact (ordNat_add_left (2 + 1114112) a.toNat b.toNat).symm
          · have := charToNat_lt a
            have := alpha_toNat_le h2
            rw [eq_comm, ordNat_gt_iff]
            omega
          · have := charToNat_lt b
            have := alpha_toNat_le h1
            rw [eq_comm, ordNat_lt_iff]
            omega
          · exact (ordNat_add_left 2 a.toNat b.toNat).symm

theorem keyChar_inj {x y : Option Char} (h : keyChar x = keyChar y) : x = y := by
  match x, y with
  | none, none => rfl
  | none, some b =>
    exfalso
    simp only [keyChar] at h
    have := charToNat_lt b
    split_ifs at h <;> omega
  | some a, none =>
    exfalso
    simp only [keyChar] at h
    have := charToNat_lt a
    split_ifs at h <;> omega
  | some a, some b =>
    simp only [keyChar] at h
    have h1 := charToNat_lt a
    have h2 := charToNat_lt b
    split_ifs at h with p1 p2 p3 p4 p5 p6 p7 p8
    all_goals first
      | (subst_vars; rfl)
      | (exfalso; first
          | exact absurd (alpha_toNat_le (by assumption)) (by omega)
          | omega)
      | (exact congrArg some (charToNat_inj (by omega)))

theorem vsCharCmp_eq_iff {x y : Option Char} : vsCharCmp x y = .eq ↔ x = y := by
  rw [vsCharCmp_eq_key, ordNat_eq_iff]
  exact ⟨fun h => keyChar_inj h, fun h => h ▸ rfl⟩

theorem transCmp_vsCharCmp : Batteries.TransCmp vsCharCmp :=
  transCmp_ptwise vsCharCmp_eq_key (transCmp_comap keyChar transCmp_ordNat)

/-! Laws for the generic padded comparison. -/

theorem padCmpGen_nil_left {α : Type} (c : Option α → Option α → Ordering) (bs : List α) :
    padCmpGen c [] bs = padLeftEmpty c bs := by
  cases bs <;> rfl

theorem padCmpGen_nil_right {α : Type} (c : Option α → Option α → Ordering) (as : List α) :
    padCmpGen c as [] = padRightEmpty c as := by
  cases as <;> rfl

theorem padCmpGen_head {α : Type} (c : Option α → Option α → Ordering) (a b : List α) :
    padCmpGen c a b =
      if a.isEmpty && b.isEmpty then .eq
      else
        match c a.head? b.head? with
        | .eq => padCmpGen c a.tail b.tail
        | o => o := by
  match a, b with
  | [], [] => rfl
  | [], b :: bs =>
    cases h : c none (some b) <;>
      simp [padCmpGen, padLeftEmpty, padCmpGen_nil_left, h]
  | a :: as, [] =>
    cases h : c (some a) none <;>
      simp [padCmpGen, padRightEmpty, padCmpGen_nil_right, h]
  | a :: as, b :: bs =>
    cases h : c (some a) (some b) <;> simp [padCmpGen, h]

theorem both_empty {α : Type} {a b : List α} (h : (a.isEmpty && b.isEmpty) = true) :
    a = [] ∧ b = [] := by
  rcases a <;> rcases b <;> simp_all

theorem tail_measure {α : Type} {a b : List α} (h : ¬ (a.isEmpty && b.isEmpty) = true) :
    a.tail.length + b.tail.length < a.length + b.length := by
  rcases a with _ | ⟨x, xs⟩ <;> rcases b with _ | ⟨y, ys⟩ <;> simp_all <;> omega

theorem padCmpGen_swap_aux {α : Type} {c : Option α → Option α → Ordering}
    (i : Batteries.TransCmp c) :
    ∀ n (a b : List α), a.length + b.length ≤ n →
      (padCmpGen c a b).swap = padCmpGen c b a := by
  intro n
  induction n with
  | zero =>
    intro a b hlen
    have ha : a = [] := List.length_eq_zero.mp (by omega)
    have hb : b = [] := List.length_eq_zero.mp (by omega)
    subst ha; subst hb
    rfl
  | succ n ih =>
    intro a b hlen
    rw [padCmpGen_head c a b, padCmpGen_head c b a]
    by_cases hab : (a.isEmpty && b.isEmpty) = true
    · have hba : (b.isEmpty && a.isEmpty) = true := by rw [Bool.and_comm]; exact hab
      rw [if_pos hab, if_pos hba]
      rfl
    · have hba : ¬ (b.isEmpty && a.isEmpty) = true := by rw [Bool.and_comm]; exact hab
      rw [if_neg hab, if_neg hba]
      have hsymm := i.symm b.head? a.head?
      cases h : c b.head? a.head? with
      | eq =>
        have h2 : c a.head? b.head? = .eq := by rw [← hsymm, h]; rfl
        simp only [h, h2]
        exact ih a.tail b.tail (by have := tail_measure hab; omega)
      | lt =>
        have h2 : c a.head? b.head? = .gt := by rw [← hsymm, h]; rfl
        simp only [h, h2]
        rfl
      | gt =>
        have h2 : c a.head? b.head? = .lt := by rw [← hsymm, h]; rfl
        simp only [h, h2]
        rfl

theorem padCmpGen_le_trans_aux {α : Type} {c : Option α → Option α → Ordering}
    (i : Batteries.TransCmp c) :
    ∀ n (a b d : List α), a.length + b.length + d.length ≤ n →
      padCmpGen c a b ≠ .gt → padCmpGen c b d ≠ .gt → padCmpGen c a d ≠ .gt := by
  haveI := i
  intro n
  induction n with
  | zero =>
    intro a b d hlen h1 h2
    have ha : a = [] := List.length_eq_zero.mp (by omega)
    have hd : d = [] := List.length_eq_zero.mp (by omega)
    subst ha; subst hd
    simp [padCmpGen, padLeftEmpty]
  | succ n ih =>
    intro a b d hlen h1 h2
    rw [padCmpGen_head c a b] at h1
    rw [padCmpGen_head c b d] at h2
    rw [padCmpGen_head c a d]
    by_cases hab : (a.isEmpty && b.isEmpty) = true
    · have ha : a = [] := (both_empty hab).1
      have hb : b = [] := (both_empty hab).2
      subst ha; subst hb
      exact h2
    · by_cases hbd : (b.isEmpty && d.isEmpty) = true
      · have hb : b = [] := (both_empty hbd).1
        have hd : d = [] := (both_empty hbd).2
        subst hb; subst hd
        exact h1
      · rw [if_neg hab] at h1
        rw [if_neg hbd] at h2
        by_cases had : (a.isEmpty && d.isEmpty) = true
        · rw [if_pos had]
          simp
        · rw [if_neg had]
          have hc1 : c a.head? b.head? ≠ .gt := by
            intro hq
            rw [hq] at h1
            exact h1 rfl
          have hc2 : c b.head? d.head? ≠ .gt := by
            intro hq
            rw [hq] at h2
            exact h2 rfl
          have hc3 : c a.head? d.head? ≠ .gt := i.le_trans hc1 hc2
          cases h3 : c a.head? d.head? with
          | lt => simp
          | gt => exact absurd h3 hc3
          | eq =>
            simp only [h3]
            have e1 : c a.head? b.head? = .eq := by
              cases hx : c a.head? b.head? with
              | gt => exact absurd hx hc1
              | eq => rfl
              | lt =>
                have hl : c a.head? d.head? = .lt := Batteries.TransCmp.lt_le_trans hx hc2
                rw [h3] at hl
                cases hl
            have e2 : c b.head? d.head? = .eq :=
              (Batteries.TransCmp.cmp_congr_left e1).symm.trans h3
            simp only [e1] at h1
            simp only [e2] at h2
            exact ih a.tail b.tail d.tail
              (by
                have hm1 := tail_measure hab
                have hm2 : d.tail.length ≤ d.length := by
                  cases d <;> simp
                omega)
              h1 h2

theorem transCmp_padCmpGen {α : Type} {c : Option α → Option α → Ordering}
    (i : Batteries.TransCmp c) : Batteries.TransCmp (padCmpGen c) where
  symm a b := padCmpGen_swap_aux i (a.length + b.length) a b (by omega)
  le_trans {a b d} h1 h2 :=
    padCmpGen_le_trans_aux i (a.length + b.length + d.length) a b d (by omega) h1 h2

/-! The character-sequence comparison is an instance of the padded comparison. -/

theorem cndLeftEmpty_eq (bs : List Char) : cndLeftEmpty bs = padLeftEmpty vsCharCmp bs := by
  induction bs with
  | nil => rfl
  | cons b bs ih =>
    cases h : vsCharCmp none (some b) <;> simp [cndLeftEmpty, padLeftEmpty, h, ih]

theorem cndRightEmpty_eq (as : List Char) : cndRightEmpty as = padRightEmpty vsCharCmp as := by
  induction as with
  | nil => rfl
  | cons a as ih =>
    cases h : vsCharCmp (some a) none <;> simp [cndRightEmpty, padRightEmpty, h, ih]

theorem compareNonDigitSeq_eq_pad :
    ∀ a b : List Char, compareNonDigitSeq a b = padCmpGen vsCharCmp a b := by
  intro a
  induction a with
  | nil =>
    intro b
    simp [compareNonDigitSeq, padCmpGen, cndLeftEmpty_eq]
  | cons a as ih =>
    intro b
    cases b with
    | nil => simp [compareNonDigitSeq, padCmpGen, cndRightEmpty_eq]
    | cons b bs =>
      cases h : vsCharCmp (some a) (some b) <;> simp [compareNonDigitSeq, padCmpGen, h, ih]

theorem transCmp_compareNonDigitSeq : Batteries.TransCmp compareNonDigitSeq :=
  transCmp_ptwise compareNonDigitSeq_eq_pad (transCmp_padCmpGen transCmp_vsCharCmp)

theorem compareNonDigitSeq_eq_iff :
    ∀ {a b : List Char}, compareNonDigitSeq a b = .eq ↔ a = b := by
  intro a
  induction a with
  | nil =>
    intro b
    cases b with
    | nil => simp [compareNonDigitSeq, cndLeftEmpty]
    | cons b bs =>
      cases h : vsCharCmp none (some b) with
      | eq => exact absurd (vsCharCmp_eq_iff.mp h) (by simp)
      | lt => simp [compareNonDigitSeq, cndLeftEmpty, h]
      | gt => simp [compareNonDigitSeq, cndLeftEmpty, h]
  | cons a as ih =>
    intro b
    cases b with
    | nil =>
      cases h : vsCharCmp (some a) none with
      | eq => exact absurd (vsCharCmp_eq_iff.mp h) (by simp)
      | lt => simp [compareNonDigitSeq, cndRightEmpty, h]
      | gt => simp [compareNonDigitSeq, cndRightEmpty, h]
    | cons b bs =>
      cases h : vsCharCmp (some a) (some b) with
      | eq =>
        have hab : a = b := by
          have := vsCharCmp_eq_iff.mp h
          exact Option.some.inj this
        subst hab
        simp [compareNonDigitSeq, h, ih]
      | lt =>
        simp only [compareNonDigitSeq, h]
        constructor
        · intro hq; cases hq
        · intro hq
          have hab : a = b := (List.cons.inj hq).1
          subst hab
          rw [vsCharCmp_eq_iff.mpr rfl] at h
          cases h
      | gt =>
        simp only [compareNonDigitSeq, h]
        constructor
        · intro hq; cases hq
        · intro hq
          have hab : a = b := (List.cons.inj hq).1
          subst hab
          rw [vsCharCmp_eq_iff.mpr rfl] at h
          cases h

/-! Raw code-point comparison is also an instance of the padded comparison. -/

theorem listCmp_eq_pad :
    ∀ a b : List Char, listCmp a b = padCmpGen (fun x y => ordNat (rawKey x) (rawKey y)) a b := by
  intro a
  induction a with
  | nil =>
    intro b
    cases b with
    | nil => rfl
    | cons b bs =>
      have h : ordNat (rawKey none) (rawKey (some b)) = .lt := by
        rw [ordNat_lt_iff]
        simp [rawKey]
      simp [listCmp, padCmpGen, padLeftEmpty, h]
  | cons a as ih =>
    intro b
    cases b with
    | nil =>
      have h : ordNat (rawKey (some a)) (rawKey none) = .gt := by
        rw [ordNat_gt_iff]
        simp [rawKey]
      simp [listCmp, padCmpGen, padRightEmpty, h]
    | cons b bs =>
      have h : ordNat (rawKey (some a)) (rawKey (some b)) = ordNat a.toNat b.toNat := by
        simp only [rawKey]
        exact ordNat_add_left 1 a.toNat b.toNat
      cases h2 : ordNat a.toNat b.toNat <;> simp [listCmp, padCmpGen, h, h2, ih]

theorem transCmp_listCmp : Batteries.TransCmp listCmp :=
  transCmp_ptwise listCmp_eq_pad (transCmp_padCmpGen (transCmp_comap rawKey transCmp_ordNat))

/-! Chunk-splitting measure facts. -/

theorem nonDigitSeq_snd_le : ∀ l : List Char, (nonDigitSeq l).2.length ≤ l.length := by
  intro l
  induction l with
  | nil => simp [nonDigitSeq]
  | cons c cs ih =>
    by_cases h : isAsciiDigit c = true <;> simp [nonDigitSeq, h] <;> omega

theorem digitSeq_snd_le : ∀ l : List Char, (digitSeq l).2.length ≤ l.length := by
  intro l
  induction l with
  | nil => simp [digitSeq]
  | cons c cs ih =>
    by_cases h : isAsciiDigit c = true <;> simp [digitSeq, h] <;> omega

theorem chunkRest_lt (l : List Char) (h : l ≠ []) :
    (digitSeq (nonDigitSeq l).2).2.length < l.length := by
  match l with
  | c :: cs =>
    by_cases hd : isAsciiDigit c = true
    · have h1 := digitSeq_snd_le cs
      simp [nonDigitSeq, digitSeq, hd]
      omega
    · have h1 := nonDigitSeq_snd_le cs
      have h2 := digitSeq_snd_le (nonDigitSeq cs).2
      simp [nonDigitSeq, hd]
      omega

theorem chunksF_fuel_eq :
    ∀ f1 f2 (l : List Char), l.length < f1 → l.length < f2 → chunksF f1 l = chunksF f2 l := by
  intro f1
  induction f1 with
  | zero => intro f2 l h1 h2; omega
  | succ f1 ih =>
    intro f2 l h1 h2
    match f2 with
    | f2 + 1 =>
      simp only [chunksF]
      by_cases hl : l.isEmpty = true
      · rw [if_pos hl, if_pos hl]
      · rw [if_neg hl, if_neg hl]
        have hne : l ≠ [] := by
          intro hq; subst hq; exact hl rfl
        have hlt := chunkRest_lt l hne
        rw [ih f2 (digitSeq (nonDigitSeq l).2).2 (by omega) (by omega)]

theorem chunks_nil : chunks [] = [] := rfl

theorem chunks_cons {l : List Char} (h : l ≠ []) :
    chunks l = ((nonDigitSeq l).1, parseU64 (digitSeq (nonDigitSeq l).2).1)
                 :: chunks (digitSeq (nonDigitSeq l).2).2 := by
  have hl : ¬ l.isEmpty = true := by
    cases l with
    | nil => exact absurd rfl h
    | cons c cs => simp
  unfold chunks
  rw [chunksF]
  rw [if_neg hl]
  have hlt := chunkRest_lt l h
  rw [chunksF_fuel_eq l.length ((digitSeq (nonDigitSeq l).2).2.length + 1)
        (digitSeq (nonDigitSeq l).2).2 (by omega) (by omega)]

/-! The chunk loop of `with_iterator` is the padded comparison of chunk lists. -/

theorem withIteratorF_eq_pad :
    ∀ fuel (a b : List Char), a.length + b.length < fuel →
      withIteratorF fuel a b = padCmpGen chunkOptCmp (chunks a) (chunks b) := by
  intro fuel
  induction fuel with
  | zero => intro a b h; omega
  | succ fuel ih =>
    intro a b hlen
    simp only [withIteratorF]
    by_cases hab : (a.isEmpty && b.isEmpty) = true
    · have ha : a = [] := (both_empty hab).1
      have hb : b = [] := (both_empty hab).2
      subst ha; subst hb
      rw [if_pos hab]
      rfl
    · rw [if_neg hab]
      by_cases ha : a = []
      · have hb : b ≠ [] := by
          intro hq
          subst ha; subst hq
          exact hab rfl
        subst ha
        rw [chunks_nil, chunks_cons hb, padCmpGen_nil_left]
        have hrest := chunkRest_lt b hb
        have recur : withIteratorF fuel [] (digitSeq (nonDigitSeq b).2).2
            = padLeftEmpty chunkOptCmp (chunks (digitSeq (nonDigitSeq b).2).2) := by
          rw [ih [] (digitSeq (nonDigitSeq b).2).2 (by simp; omega), chunks_nil,
            padCmpGen_nil_left]
        cases h1 : compareNonDigitSeq (nonDigitSeq []).1 (nonDigitSeq b).1 <;>
          cases h2 : ordNat (parseU64 (digitSeq (nonDigitSeq []).2).1)
                           (parseU64 (digitSeq (nonDigitSeq b).2).1) <;>
          simp_all [padLeftEmpty, chunkOptCmp, nonDigitSeq, digitSeq, parseU64]
      · by_cases hb : b = []
        · subst hb
          rw [chunks_nil, chunks_cons ha, padCmpGen_nil_right]
          have hrest := chunkRest_lt a ha
          have recur : withIteratorF fuel (digitSeq (nonDigitSeq a).2).2 []
              = padRightEmpty chunkOptCmp (chunks (digitSeq (nonDigitSeq a).2).2) := by
            rw [ih (digitSeq (nonDigitSeq a).2).2 [] (by simp; omega), chunks_nil,
              padCmpGen_nil_right]
          cases h1 : compareNonDigitSeq (nonDigitSeq a).1 (nonDigitSeq []).1 <;>
            cases h2 : ordNat (parseU64 (digitSeq (nonDigitSeq a).2).1)
                             (parseU64 (digitSeq (nonDigitSeq []).2).1) <;>
            simp_all [padRightEmpty, chunkOptCmp, nonDigitSeq, digitSeq, parseU64]
        · rw [chunks_cons ha, chunks_cons hb]
          have hra := chunkRest_lt a ha
          have hrb := chunkRest_lt b hb
          have recur : withIteratorF fuel (digitSeq (nonDigitSeq a).2).2 (digitSeq (nonDigitSeq b).2).2
              = padCmpGen chunkOptCmp (chunks (digitSeq (nonDigitSeq a).2).2)
                  (chunks (digitSeq (nonDigitSeq b).2).2) :=
            ih _ _ (by omega)
          cases h1 : compareNonDigitSeq (nonDigitSeq a).1 (nonDigitSeq b).1 <;>
            cases h2 : ordNat (parseU64 (digitSeq (nonDigitSeq a).2).1)
                             (parseU64 (digitSeq (nonDigitSeq b).2).1) <;>
            simp_all [padCmpGen, chunkOptCmp]

theorem withIterator_eq_pad (a b : List Char) :
    withIterator a b = padCmpGen chunkOptCmp (chunks a) (chunks b) :=
  withIteratorF_eq_pad (a.length + b.length + 1) a b (by omega)

theorem transCmp_chunkOptCmp : Batteries.TransCmp chunkOptCmp := by
  have base := transCmp_lex
      (transCmp_comap (fun x : Option (List Char × Nat) => (x.getD ([], 0)).1)
        transCmp_compareNonDigitSeq)
      (transCmp_comap (fun x : Option (List Char × Nat) => (x.getD ([], 0)).2)
        transCmp_ordNat)
  refine transCmp_ptwise (fun x y => ?_) base
  cases h : compareNonDigitSeq (x.getD ([], 0)).1 (y.getD ([], 0)).1 <;>
    simp [chunkOptCmp, h, Ordering.then]

theorem transCmp_withIterator : Batteries.TransCmp withIterator :=
  transCmp_ptwise withIterator_eq_pad
    (transCmp_comap chunks (transCmp_padCmpGen transCmp_chunkOptCmp))

theorem transCmp_compareVersionSort : Batteries.TransCmp compareVersionSort :=
  transCmp_ptwise (fun _ _ => rfl) transCmp_withIterator

theorem listCmp_eq_iff : ∀ {a b : List Char}, listCmp a b = .eq ↔ a = b := by
  intro a
  induction a with
  | nil =>
    intro b
    cases b <;> simp [listCmp]
  | cons a as ih =>
    intro b
    cases b with
    | nil => simp [listCmp]
    | cons b bs =>
      cases h : ordNat a.toNat b.toNat with
      | eq =>
        have hab : a = b := charToNat_inj (ordNat_eq_iff.mp h)
        subst hab
        simp [listCmp, h, ih]
      | lt =>
        simp only [listCmp, h]
        constructor
        · intro hq; cases hq
        · intro hq
          have hab : a = b := (List.cons.inj hq).1
          subst hab
          rw [ordNat_eq_iff.mpr rfl] at h
          cases h
      | gt =>
        simp only [listCmp, h]
        constructor
        · intro hq; cases hq
        · intro hq
          have hab : a = b := (List.cons.inj hq).1
          subst hab
          rw [ordNat_eq_iff.mpr rfl] at h
          cases h

/-! The top-level comparator is the lexicographic composition of its stages. -/

theorem compare_eq_lex (a b : List Char) :
    compare a b = (compareVersionSort (splitExtension a).1 (splitExtension b).1).then
      ((compareVersionSort a b).then (listCmp a b)) := by
  cases h1 : compareVersionSort (splitExtension a).1 (splitExtension b).1 <;>
    cases h2 : compareVersionSort a b <;>
    simp [compare, h1, h2, Ordering.then]

theorem transCmp_compare : Batteries.TransCmp compare :=
  transCmp_ptwise compare_eq_lex
    (transCmp_lex
      (transCmp_comap (fun s : List Char => (splitExtension s).1) transCmp_compareVersionSort)
      (transCmp_lex transCmp_compareVersionSort transCmp_listCmp))

theorem compare_eq_iff {a b : List Char} : compare a b = .eq ↔ a = b := by
  constructor
  · intro h
    rw [compare_eq_lex, Ordering.then_eq_eq, Ordering.then_eq_eq] at h
    exact listCmp_eq_iff.mp h.2.2
  · rintro rfl
    haveI := transCmp_compareVersionSort
    rw [compare_eq_lex]
    have r1 : compareVersionSort (splitExtension a).1 (splitExtension a).1 = .eq :=
      Batteries.OrientedCmp.cmp_refl
    have r2 : compareVersionSort a a = .eq := Batteries.OrientedCmp.cmp_refl
    have r3 : listCmp a a = .eq := listCmp_eq_iff.mpr rfl
    rw [r1, r2, r3]
    rfl

/-! Properties of the extension splitter. -/

theorem splitExtension_append : ∀ s : List Char, (splitExtension s).1 ++ (splitExtension s).2 = s := by
  intro s
  induction s with
  | nil => rfl
  | cons c cs ih =>
    by_cases h : isExtLang (c :: cs) = true
    · simp [splitExtension, h]
    · simp [splitExtension, h, ih]

theorem splitExtension_ext_lang : ∀ s : List Char, isExtLang (splitExtension s).2 = true := by
  intro s
  induction s with
  | nil => rfl
  | cons c cs ih =>
    by_cases h : isExtLang (c :: cs) = true
    · simpa [splitExtension, h] using h
    · simpa [splitExtension, h] using ih

theorem splitExtension_maximal :
    ∀ s t : List Char, t <:+ s → isExtLang t = true →
      t.length ≤ (splitExtension s).2.length := by
  intro s
  induction s with
  | nil =>
    intro t hsuf hlang
    have ht : t = [] := List.suffix_nil.mp hsuf
    subst ht
    simp
  | cons c cs ih =>
    intro t hsuf hlang
    by_cases h : isExtLang (c :: cs) = true
    · simp only [splitExtension, if_pos h]
      exact hsuf.length_le
    · simp only [splitExtension, if_neg h]
      rcases List.suffix_cons_iff.mp hsuf with he | hs
      · exact absurd hlang (he ▸ h)
      · exact ih t hs hlang

/-! Claim theorems. -/

/-- Claim C1, counterexample: the claim asserts `compare("", "~") = Less`
(every privileged string below everything else) and a privileged-prefix sort
result; the code disagrees on both: the empty string does not outrank tilde,
and the sort output differs. -/
theorem c1_counterexample :
    Vsort.compare "".toList "~".toList ≠ .lt
    ∧ Vsort.sort [ "a".toList, "b".toList, ".".toList, "c".toList, "..".toList,
        ".d20".toList, ".d3".toList ]
      ≠ [ ".".toList, "..".toList, ".d3".toList, ".d20".toList, "a".toList,
        "b".toList, "c".toList ] := by
  constructor
  · decide
  · decide

/-- Claim C1, amended: `compare("", ".") = Less` and `compare(".", "..") = Less`
do hold, but the privileged strings do not rank before everything else:
`compare("", "~") = Greater` (tilde outranks the empty string, as the
repository's own tests require) and `compare("..", ".d3") = Greater`, so the
example sort yields `[".d3", ".d20", "a", "b", "c", ".", ".."]`. -/
theorem c1_amended :
    Vsort.compare "".toList ".".toList = .lt
    ∧ Vsort.compare ".".toList "..".toList = .lt
    ∧ Vsort.compare "".toList "~".toList = .gt
    ∧ Vsort.compare "..".toList ".d3".toList = .gt
    ∧ Vsort.sort [ "a".toList, "b".toList, ".".toList, "c".toList, "..".toList,
        ".d20".toList, ".d3".toList ]
      = [ ".d3".toList, ".d20".toList, "a".toList, "b".toList, "c".toList,
        ".".toList, "..".toList ] := by
  refine ⟨by decide, by decide, by decide, by decide, by decide⟩

/-- Claim C2: the code parses digit runs into 64 bits with overflow defaulted
to zero, so a twenty-digit run compares as the value `0`: the code orders
`"99999999999999999999"` before `"1"`, while the specification's reference
digit-run order (strip zeros, then length, then lexicographic) orders it
after.  This exhibits the overflow divergence at a concrete input. -/
theorem c2_overflow_divergence :
    Vsort.compare (List.replicate 20 '9') "1".toList = .lt
    ∧ specDigitRunCmp (List.replicate 20 '9') "1".toList = .gt
    ∧ parseU64 (List.replicate 20 '9') = 0 := by
  refine ⟨by decide, by decide, by decide⟩

/-- Claim C3, counterexample: the claim asserts `compare("a0", "a") = Equal`,
but the code's final raw tie-break makes the result `Greater`. -/
theorem c3_counterexample : Vsort.compare "a0".toList "a".toList ≠ .eq := by
  decide

/-- Claim C3, amended: the chunked comparison does treat a missing digit run
as zero, so `with_iterator` reports `"a0"`, `"a0000"` and `"a"` equal, but the
top-level `compare` then breaks the tie by raw string order and returns
`Greater`, not `Equal`. -/
theorem c3_amended :
    compareVersionSort "a0".toList "a".toList = .eq
    ∧ compareVersionSort "a0000".toList "a".toList = .eq
    ∧ Vsort.compare "a0".toList "a".toList = .gt
    ∧ Vsort.compare "a0000".toList "a".toList = .gt := by
  refine ⟨by decide, by decide, by decide, by decide⟩

/-- Claim C4: `compare` is a total three-way comparison satisfying the order
axioms: it always returns one of `lt`/`eq`/`gt`; equality is symmetric;
`Less` flips to `Greater`; and each of the three relations is transitive. -/
theorem c4_order_laws :
    (∀ a b : List Char, Vsort.compare a b = .lt ∨ Vsort.compare a b = .eq
        ∨ Vsort.compare a b = .gt)
    ∧ (∀ a b : List Char, Vsort.compare a b = .eq → Vsort.compare b a = .eq)
    ∧ (∀ a b : List Char, Vsort.compare a b = .lt → Vsort.compare b a = .gt)
    ∧ (∀ a b d : List Char, Vsort.compare a b = .lt → Vsort.compare b d = .lt →
        Vsort.compare a d = .lt)
    ∧ (∀ a b d : List Char, Vsort.compare a b = .eq → Vsort.compare b d = .eq →
        Vsort.compare a d = .eq)
    ∧ (∀ a b d : List Char, Vsort.compare a b = .gt → Vsort.compare b d = .gt →
        Vsort.compare a d = .gt) := by
  haveI := transCmp_compare
  refine ⟨?_, ?_, ?_, ?_, ?_, ?_⟩
  · intro a b
    cases Vsort.compare a b <;> simp
  · intro a b h
    exact Batteries.OrientedCmp.cmp_eq_eq_symm.mp h
  · intro a b h
    exact Batteries.OrientedCmp.cmp_eq_gt.mpr h
  · intro a b d h1 h2
    exact Batteries.TransCmp.lt_trans h1 h2
  · intro a b d h1 h2
    exact (Batteries.TransCmp.cmp_congr_left h1).trans h2
  · intro a b d h1 h2
    exact Batteries.TransCmp.gt_trans h1 h2

/-- Claim C4, witness: the symmetry and transitivity laws applied at concrete
inputs. -/
theorem c4_order_laws_witness :
    Vsort.compare "b".toList "a".toList = .gt ∧ Vsort.compare "a".toList "c".toList = .lt :=
  ⟨c4_order_laws.2.2.1 "a".toList "b".toList (by decide),
   c4_order_laws.2.2.2.1 "a".toList "b".toList "c".toList (by decide) (by decide)⟩

/-- Claim C5: the claim (mirroring the GNU rules the source's documentation
cites) says a hidden name such as `".0"` sorts before any non-dotted name
such as `"a"`, and that two dotted names compare as their dot-stripped forms;
the code has no hidden-name handling: `compare(".0", "a") = Greater`, and
`compare(".0", ".a") = Greater` although the stripped comparison
`compare("0", "a")` is `Less`. -/
theorem c5_hidden_name_divergence :
    Vsort.compare ".0".toList "a".toList = .gt
    ∧ Vsort.compare ".0".toList ".a".toList = .gt
    ∧ Vsort.compare "0".toList "a".toList = .lt := by
  refine ⟨by decide, by decide, by decide⟩

/-- Claim C6: `split_extension` splits every string into a base and an
extension whose concatenation restores the string; the extension lies in the
anchored extension language and is the longest suffix that does; the listed
concrete examples hold, and a trailing bare dot yields an empty extension. -/
theorem c6_split_extension :
    (∀ s : List Char,
        (splitExtension s).1 ++ (splitExtension s).2 = s
        ∧ isExtLang (splitExtension s).2 = true
        ∧ (∀ t : List Char, t <:+ s → isExtLang t = true →
            t.length ≤ (splitExtension s).2.length))
    ∧ splitExtension "hello-8.0.12.tar.gz".toList = ("hello-8.0.12".toList, ".tar.gz".toList)
    ∧ splitExtension ".autom4te.cfg".toList = ([], ".autom4te.cfg".toList)
    ∧ splitExtension "a.".toList = ("a.".toList, []) := by
  refine ⟨fun s => ⟨splitExtension_append s, splitExtension_ext_lang s,
    fun t h1 h2 => splitExtension_maximal s t h1 h2⟩, by decide, by decide, by decide⟩

/-- Claim C6, witness: maximality applied to the suffix `".gz"` of `"a.gz"`. -/
theorem c6_split_extension_witness :
    ".gz".toList.length ≤ (splitExtension "a.gz".toList).2.length :=
  (c6_split_extension.1 "a.gz".toList).2.2 ".gz".toList (by decide) (by decide)

/-- Claim C7: in the character-ranker order, tilde is strictly below every
other character and below the absent marker; the absent marker is below every
character except tilde; among present non-tilde characters, ASCII letters
rank below non-letters and raw code-point order decides inside a class; and
the order is reflexive, antisymmetric and transitive. -/
theorem c7_char_ranker :
    (∀ c : Char, c ≠ '~' → vsCharCmp (some '~') (some c) = .lt)
    ∧ vsCharCmp (some '~') none = .lt
    ∧ (∀ c : Char, c ≠ '~' → vsCharCmp none (some c) = .lt)
    ∧ (∀ a b : Char, a ≠ '~' → b ≠ '~' → isAsciiAlphabetic a = true →
        isAsciiAlphabetic b = false → vsCharCmp (some a) (some b) = .lt)
    ∧ (∀ a b : Char, a ≠ '~' → b ≠ '~' → isAsciiAlphabetic a = isAsciiAlphabetic b →
        vsCharCmp (some a) (some b) = ordNat a.toNat b.toNat)
    ∧ (∀ x : Option Char, vsCharCmp x x = .eq)
    ∧ (∀ x y : Option Char, vsCharCmp x y = .eq → x = y)
    ∧ (∀ x y z : Option Char, vsCharCmp x y = .lt → vsCharCmp y z = .lt →
        vsCharCmp x z = .lt) := by
  refine ⟨?_, by decide, ?_, ?_, ?_, ?_, ?_, ?_⟩
  · intro c hc
    have h1 : keyChar (some '~') = 0 := by simp [keyChar]
    have h2 : 0 < keyChar (some c) := by
      simp only [keyChar, if_neg hc]
      split_ifs <;> omega
    rw [vsCharCmp_eq_key, ordNat_lt_iff, h1]
    exact h2
  · intro c hc
    have h0 : keyChar none = 1 := rfl
    have h2 : 1 < keyChar (some c) := by
      simp only [keyChar, if_neg hc]
      split_ifs <;> omega
    rw [vsCharCmp_eq_key, ordNat_lt_iff, h0]
    exact h2
  · intro a b ha hb h1 h2
    have ka : keyChar (some a) = 2 + a.toNat := by simp [keyChar, ha, h1]
    have kb : keyChar (some b) = 2 + 1114112 + b.toNat := by simp [keyChar, hb, h2]
    rw [vsCharCmp_eq_key, ordNat_lt_iff, ka, kb]
    have := alpha_toNat_le h1
    omega
  · intro a b ha hb hcls
    rw [vsCharCmp_eq_key]
    cases h1 : isAsciiAlphabetic a with
    | true =>
      have h2 : isAsciiAlphabetic b = true := by rw [← hcls, h1]
      have ka : keyChar (some a) = 2 + a.toNat := by simp [keyChar, ha, h1]
      have kb : keyChar (some b) = 2 + b.toNat := by simp [keyChar, hb, h2]
      rw [ka, kb, ordNat_add_left]
    | false =>
      have h2 : isAsciiAlphabetic b = false := by rw [← hcls, h1]
      have ka : keyChar (some a) = 2 + 1114112 + a.toNat := by simp [keyChar, ha, h1]
      have kb : keyChar (some b) = 2 + 1114112 + b.toNat := by simp [keyChar, hb, h2]
      rw [ka, kb, ordNat_add_left]
  · intro x
    rw [vsCharCmp_eq_key, ordNat_eq_iff]
  · intro x y h
    exact vsCharCmp_eq_iff.mp h
  · intro x y z h1 h2
    rw [vsCharCmp_eq_key, ordNat_lt_iff] at h1 h2 ⊢
    omega

/-- Claim C7, witness: tilde below a letter, and a letter below punctuation. -/
theorem c7_char_ranker_witness :
    vsCharCmp (some '~') (some 'a') = .lt ∧ vsCharCmp (some 'a') (some '.') = .lt :=
  ⟨c7_char_ranker.1 'a' (by decide),
   c7_char_ranker.2.2.2.1 'a' '.' (by decide) (by decide) (by decide) (by decide)⟩

/-- Claim C8: with the non-digit context fixed, digit runs compare by numeric
value: the chain `"8.01" < "8.1" < "8.5" < "8.010" < "8.10" < "8.49" <
"8.100"` holds under `compare`, and within chunked comparison `"008"` and
`"8"` both denote the numeric value 8 and compare equal. -/
theorem c8_numeric_magnitude :
    Vsort.compare "8.01".toList "8.1".toList = .lt
    ∧ Vsort.compare "8.1".toList "8.5".toList = .lt
    ∧ Vsort.compare "8.5".toList "8.010".toList = .lt
    ∧ Vsort.compare "8.010".toList "8.10".toList = .lt
    ∧ Vsort.compare "8.10".toList "8.49".toList = .lt
    ∧ Vsort.compare "8.49".toList "8.100".toList = .lt
    ∧ parseU64 "008".toList = 8
    ∧ parseU64 "8".toList = 8
    ∧ compareVersionSort "008".toList "8".toList = .eq := by
  refine ⟨by decide, by decide, by decide, by decide, by decide, by decide,
    by decide, by decide, by decide⟩

/-- Claim C9: whenever the base comparison and the full chunked comparison
both report `Equal`, `compare` returns the raw code-point order, and in
particular `compare("a0001", "a1") ≠ Equal`. -/
theorem c9_raw_tie_break :
    (∀ a b : List Char,
        compareVersionSort (splitExtension a).1 (splitExtension b).1 = .eq →
        compareVersionSort a b = .eq →
        Vsort.compare a b = listCmp a b)
    ∧ Vsort.compare "a0001".toList "a1".toList ≠ .eq := by
  constructor
  · intro a b h1 h2
    simp [Vsort.compare, h1, h2]
  · decide

/-- Claim C9, witness: the tie-break rule applied to `"a0"` versus `"a"`. -/
theorem c9_raw_tie_break_witness :
    Vsort.compare "a0".toList "a".toList = listCmp "a0".toList "a".toList :=
  c9_raw_tie_break.1 "a0".toList "a".toList (by decide) (by decide)

/-- Claim C10: `compare` returns `Equal` exactly on identical strings: the
raw-string fallback strictly orders every pair of distinct strings. -/
theorem c10_eq_iff_identical :
    ∀ a b : List Char, Vsort.compare a b = .eq ↔ a = b :=
  fun _ _ => compare_eq_iff

/-- Claim C10, witness: the equivalence applied at concrete inputs. -/
theorem c10_eq_iff_identical_witness :
    Vsort.compare "ab".toList "ab".toList = .eq
    ∧ Vsort.compare "a0".toList "a".toList ≠ .eq :=
  ⟨(c10_eq_iff_identical "ab".toList "ab".toList).mpr rfl,
   fun h => by
     have := (c10_eq_iff_identical "a0".toList "a".toList).mp h
     exact absurd this (by decide)⟩

end Vsort
